import Mathlib

/-!
Shallow embedding of the FAQ-extraction logic of this repository
(src/commonscrape.py and src/file.py) and proofs about it.

Python strings that carry LLM-response content and JSON candidates are
modelled as `List Char`; URLs and JSON object keys are modelled as `String`.
External services (the Firecrawl crawl, the LLM call, and `json.loads`)
are modelled as oracle parameters, since their behaviour is not part of
this repository's code.
-/

namespace Scrape

/-- The `\x7b` character (opening curly brace). -/
def lbrace : Char := '\x7b'

/-- The `\x7d` character (closing curly brace). -/
def rbrace : Char := '\x7d'

/-- A character accepted by the regex character class that excludes both
curly braces (written `[^...]` over the two braces in the pattern). -/
def isNB (c : Char) : Bool := c ≠ lbrace && c ≠ rbrace

/-- Brace scanner: `braceScan s d` walks `s` starting at nesting depth `d`,
failing (`none`) when a closing brace appears at depth 0, and otherwise
returning the final depth together with the maximum depth visited. -/
def braceScan : List Char → Nat → Option (Nat × Nat)
  | [], d => some (d, d)
  | c :: s, d =>
    if c = lbrace then braceScan s (d + 1)
    else if c = rbrace then
      match d with
      | 0 => none
      | d' + 1 => (braceScan s d').map (fun p => (p.1, max (d' + 1) p.2))
    else braceScan s d

/-- A string has balanced braces at depth `k` when scanning it from depth 0
never underflows and ends back at depth 0; `k` is the maximum nesting depth. -/
def balancedDepth (m : List Char) : Option Nat :=
  match braceScan m 0 with
  | some (0, k) => some k
  | _ => none

/-!
The JSON-extraction regex of `FAQExtractor._extract_json_from_response`
(src/commonscrape.py, line 186) and `FAQExtractor.extract_faqs`
(src/file.py, line 168) is, with `L` and `R` standing for the two braces:
`L ( [^LR] | ( L ( [^LR] | ( L [^LR]* R ) )* R ) )* R`.
At every position each alternative is decided by the next character
(`[^LR]` and a nested group are disjoint on their first character, and the
star can never hand back characters usefully), so Python's backtracking
matcher is equivalent to the deterministic recursive matcher below, one
function per nesting level; `findAll` reproduces `re.findall`'s scan:
try a match at each position, emit it and continue after its end, or
advance one character on failure.
-/

/-- Greedy `[^LR]*`: the longest prefix of non-brace characters, with the rest. -/
def spanNB : List Char → List Char × List Char
  | [] => ([], [])
  | c :: s =>
    if isNB c then (c :: (spanNB s).1, (spanNB s).2)
    else ([], c :: s)

/-- Innermost group `L [^LR]* R` of the pattern (third nesting level). -/
def group1 : List Char → Option (List Char × List Char)
  | [] => none
  | c :: s =>
    if c = lbrace then
      match (spanNB s).2 with
      | r0 :: r' => if r0 = rbrace then some (lbrace :: (spanNB s).1 ++ [rbrace], r') else none
      | [] => none
    else none

/-- Body `( [^LR] | innermost group )*` of the second-level group: consumes
atoms greedily and returns the consumed prefix with the rest. The fuel is
only a termination device; callers pass at least the length of the input. -/
def body1 : Nat → List Char → List Char × List Char
  | 0, s => ([], s)
  | _ + 1, [] => ([], [])
  | fuel + 1, c :: s =>
    if isNB c then (c :: (body1 fuel s).1, (body1 fuel s).2)
    else if c = lbrace then
      match group1 (c :: s) with
      | some (g, rest) => (g ++ (body1 fuel rest).1, (body1 fuel rest).2)
      | none => ([], c :: s)
    else ([], c :: s)

/-- Second-level group `L ( [^LR] | innermost group )* R` of the pattern. -/
def group2 (fuel : Nat) : List Char → Option (List Char × List Char)
  | [] => none
  | c :: s =>
    if c = lbrace then
      match (body1 fuel s).2 with
      | r0 :: r' => if r0 = rbrace then some (lbrace :: (body1 fuel s).1 ++ [rbrace], r') else none
      | [] => none
    else none

/-- Body `( [^LR] | second-level group )*` of the whole pattern. -/
def body2 : Nat → List Char → List Char × List Char
  | 0, s => ([], s)
  | _ + 1, [] => ([], [])
  | fuel + 1, c :: s =>
    if isNB c then (c :: (body2 fuel s).1, (body2 fuel s).2)
    else if c = lbrace then
      match group2 fuel (c :: s) with
      | some (g, rest) => (g ++ (body2 fuel rest).1, (body2 fuel rest).2)
      | none => ([], c :: s)
    else ([], c :: s)

/-- The whole pattern `L ( [^LR] | second-level group )* R`: one attempted
match at the start of the input. -/
def group3 (fuel : Nat) : List Char → Option (List Char × List Char)
  | [] => none
  | c :: s =>
    if c = lbrace then
      match (body2 fuel s).2 with
      | r0 :: r' => if r0 = rbrace then some (lbrace :: (body2 fuel s).1 ++ [rbrace], r') else none
      | [] => none
    else none

/-- `re.findall` scan: attempt a match at every position, emitting each
match and resuming after it, advancing one character on failure. -/
def findAllAux : Nat → List Char → List (List Char)
  | 0, _ => []
  | _ + 1, [] => []
  | fuel + 1, c :: s =>
    match group3 fuel (c :: s) with
    | some (m, rest) => m :: findAllAux fuel rest
    | none => findAllAux fuel s

/-- `re.findall(json_pattern, response_content, re.DOTALL)` as used in
`FAQExtractor._extract_json_from_response` (src/commonscrape.py) and in
`FAQExtractor.extract_faqs` (src/file.py). -/
def findAll (s : List Char) : List (List Char) := findAllAux (s.length + 1) s

/-!
Data model of the extractor (src/commonscrape.py). JSON values produced by
`json.loads` are modelled by `JVal`; a parsed JSON object is its ordered
key/value list. External services are oracle parameters collected in
`Oracles`.
-/

/-- JSON values as produced by `json.loads`. -/
inductive JVal where
  | str (s : String)
  | num (n : Int)
  | bool (b : Bool)
  | null
  | arr (xs : List JVal)
  | obj (fields : List (String × JVal))

/-- The sentinel `"Not available"` stored for missing fields in
`FAQExtractor._process_faq_data` (src/commonscrape.py, line 205). -/
def sentinel : JVal := JVal.str "Not available"

/-- The fixed field list iterated by `_process_faq_data` (line 203). -/
def expectedFields : List String :=
  ["organisation_name", "category", "question", "answer", "links"]

/-- One iteration of the default-filling loop of `_process_faq_data`
(lines 203-205): `if field not in json_obj: json_obj[field] = "Not
available"`; Python inserts a new key at the end of the dict. -/
def fillOne (acc : List (String × JVal)) (f : String) : List (String × JVal) :=
  match acc.lookup f with
  | some _ => acc
  | none => acc ++ [(f, sentinel)]

/-- The whole default-filling loop of `_process_faq_data`. -/
def fillDefaults (o : List (String × JVal)) : List (String × JVal) :=
  expectedFields.foldl fillOne o

/-- `json_obj[field]` as read after default filling (lines 207-211); the
`getD` default is never reached for the five expected fields because they
are present after filling. -/
def getField (o : List (String × JVal)) (f : String) : JVal :=
  (o.lookup f).getD sentinel

/-- The extractor's state: `self.data_dict` as set up by
`FAQExtractor._initialize_data_dict` (six parallel lists), together with
`self.notcollected` (src/commonscrape.py, lines 49-69). -/
structure ExtState where
  organisation_name : List JVal
  category : List JVal
  question : List JVal
  answer : List JVal
  links : List JVal
  URL : List String
  notcollected : List String

/-- State after `__init__`: every list empty. -/
def initState : ExtState := ⟨[], [], [], [], [], [], []⟩

/-- `FAQExtractor._process_faq_data` (lines 195-212): fill the defaults,
then append each field value and the source URL to the parallel lists. -/
def processFaqData (st : ExtState) (o : List (String × JVal)) (url : String) : ExtState :=
  { st with
    organisation_name := st.organisation_name ++ [getField (fillDefaults o) "organisation_name"]
    category := st.category ++ [getField (fillDefaults o) "category"]
    question := st.question ++ [getField (fillDefaults o) "question"]
    answer := st.answer ++ [getField (fillDefaults o) "answer"]
    links := st.links ++ [getField (fillDefaults o) "links"]
    URL := st.URL ++ [url] }

/-- The per-URL dictionary built by `FAQExtractor._get_url_data`
(lines 265-286): `none` models the empty dict `\x7b\x7d`. -/
structure FaqRow where
  organisation_name : JVal
  category : JVal
  question : JVal
  answer : JVal
  links : JVal
  URL : String

/-- The row assembled from index `idx` of the parallel lists; `none` when
an index is out of range (impossible at equal-length states, where Python
would raise and never does). -/
def rowAt (st : ExtState) (idx : Nat) (url : String) : Option FaqRow :=
  match st.organisation_name.get? idx, st.category.get? idx, st.question.get? idx,
      st.answer.get? idx, st.links.get? idx with
  | some o, some c, some q, some a, some l => some ⟨o, c, q, a, l, url⟩
  | _, _, _, _, _ => none

/-- `FAQExtractor._get_url_data`: the empty dict when the URL is absent,
otherwise the row at `self.data_dict['URL'].index(url)`, the first index
of the URL. -/
def getUrlData (st : ExtState) (url : String) : Option FaqRow :=
  match st.URL.findIdx? (· == url) with
  | none => none
  | some idx => rowAt st idx url

/-- Oracles for the external services: `crawlAttempt url n` is the outcome
of the n-th `app.crawl_url(url, ...)['data'][0]['markdown']` call (content,
or an exception message), `llm prompt` is `self.llm.invoke(prompt).content`
or an exception, and `parse s` is `json.loads(s)` with `none` standing for
`json.JSONDecodeError`. -/
structure Oracles where
  crawlAttempt : String → Nat → Except String (List Char)
  llm : List Char → Except String (List Char)
  parse : List Char → Option (List (String × JVal))

/-- The tenacity `@retry(stop=stop_after_attempt(3), wait=wait_exponential(...),
reraise=True)` combinator (src/commonscrape.py, lines 89-93): run the
state-passing body at attempt index `i`; if it raises with attempts left,
run it again on the resulting state; the final attempt's exception is
re-raised. The second result component counts the attempts performed. -/
def tenacityRun (body : Nat → σ → Except E A × σ) : Nat → σ → Nat → (Except E A × σ) × Nat
  | i, s, 0 => (body i s, 1)
  | i, s, 1 => (body i s, 1)
  | i, s, k + 2 =>
    match body i s with
    | (.ok a, s') => ((.ok a, s'), 1)
    | (.error _, s') =>
      match tenacityRun body (i + 1) s' (k + 1) with
      | (r, c) => (r, c + 1)

/-- The body of `FAQExtractor._crawl_website` (lines 104-121): the whole
body is a `try` block whose `except` clause logs the error, appends the URL
to `notcollected`, sleeps, and returns `None` — the body itself never
raises an exception. -/
def crawlBody (O : Oracles) (url : String) (i : Nat) (nc : List String) :
    Except String (Option (List Char)) × List String :=
  match O.crawlAttempt url i with
  | .ok md => (.ok (some md), nc)
  | .error _ => (.ok none, nc ++ [url])

/-- `FAQExtractor._crawl_website` as decorated: the tenacity wrapper with
`stop_after_attempt(3)` around `crawlBody`. -/
def crawlWebsiteRetry (O : Oracles) (url : String) (nc : List String) :
    (Except String (Option (List Char)) × List String) × Nat :=
  tenacityRun (crawlBody O url) 0 nc 3

/-- `FAQExtractor._create_extraction_template` (lines 123-173): a fixed
f-string instruction with the crawled markdown interpolated near the end.
The literal prompt text plays no role in any claim and is abbreviated. -/
def templateHead : List Char :=
  "Task: Extract frequently asked questions (FAQs) from the given markdown or context.".toList

/-- Tail of the extraction template after the interpolated context. -/
def templateTail : List Char := "\n".toList

/-- The prompt string passed to `self.llm.invoke`. -/
def createExtractionTemplate (context : List Char) : List Char :=
  templateHead ++ context ++ templateTail

/-- `FAQExtractor._extract_json_from_response` (lines 175-193): the regex
matches of the response. When there are no matches the function raises
internally, catches its own exception and returns the empty dict, over
which the caller's loop iterates zero times — observably the empty list. -/
def extractJsonFromResponse (content : List Char) : List (List Char) :=
  findAll content

/-- The storage loop of `process_single_url` (lines 248-254): parse each
candidate with `json.loads` and store it via `_process_faq_data`; on a
`JSONDecodeError` the `except` clause re-raises, aborting the loop while
the rows already stored remain. The boolean records whether the loop
completed without raising. -/
def processCandidates (O : Oracles) (url : String) :
    ExtState → List (List Char) → ExtState × Bool
  | st, [] => (st, true)
  | st, c :: cs =>
    match O.parse c with
    | some o => processCandidates O url (processFaqData st o url) cs
    | none => (st, false)

/-- `FAQExtractor.process_single_url` (lines 214-263): skip URLs already in
the table, otherwise crawl, prompt the LLM, regex-extract candidates, store
them, and return the first stored row for the URL; any exception inside the
`try` block yields the empty dict, with all mutations made so far kept. -/
def processSingleUrl (O : Oracles) (st : ExtState) (url : String) :
    Option FaqRow × ExtState :=
  if url ∈ st.URL then (getUrlData st url, st)
  else
    match (crawlWebsiteRetry O url st.notcollected).1 with
    | (.error _, nc') => (none, { st with notcollected := nc' })
    | (.ok ctxOpt, nc') =>
      match ctxOpt with
      | none => (none, { st with notcollected := nc' })
      | some ctx =>
        if ctx = [] then (none, { st with notcollected := nc' })
        else
          match O.llm (createExtractionTemplate ctx) with
          | .error _ => (none, { st with notcollected := nc' })
          | .ok content =>
            match processCandidates O url { st with notcollected := nc' }
                (extractJsonFromResponse content) with
            | (st2, true) => (getUrlData st2 url, st2)
            | (st2, false) => (none, st2)

/-- The argument of `extract_faqs`: a single URL string or a list. -/
inductive UrlsArg where
  | single (url : String)
  | many (urls : List String)

/-- Python truthiness of the `max_urls : Optional[int]` argument
(`if max_urls:` at line 305): `None` and `0` are falsy. -/
def pyTruthy : Option Int → Bool
  | none => false
  | some n => n != 0

/-- Python list slicing `urls[:n]` (line 306); a negative bound counts from
the end of the list. -/
def pySlice (l : List String) (n : Int) : List String :=
  if 0 ≤ n then l.take n.toNat
  else l.take (l.length - min l.length n.natAbs)

/-- `FAQExtractor.extract_faqs` (src/commonscrape.py, lines 288-313). -/
def extractFaqs (O : Oracles) (st : ExtState) (urls : UrlsArg)
    (maxUrls : Option Int) : ExtState :=
  match urls with
  | .single u => (processSingleUrl O st u).2
  | .many l =>
    (if pyTruthy maxUrls then pySlice l (maxUrls.getD 0) else l).foldl
      (fun s u => (processSingleUrl O s u).2) st

/-- The per-match loop of `FAQExtractor.extract_faqs` in src/file.py
(lines 176-183): parse each regex match, appending successes to
`extracted_data` and skipping candidates that raise `JSONDecodeError`. -/
def fileProcessMatches (parse : List Char → Option (List (String × JVal)))
    (ms : List (List Char)) : List (List (String × JVal)) :=
  ms.foldl
    (fun acc m =>
      match parse m with
      | some o => acc ++ [o]
      | none => acc) []

/-- Prompt builder `_get_extraction_prompt` of src/file.py, abbreviated the
same way as the commonscrape template. -/
def filePrompt (context : List Char) : List Char :=
  templateHead ++ context ++ templateTail

/-- `FAQExtractor.extract_faqs` (src/file.py, lines 144-189): reject empty
context, invoke the LLM, regex-extract candidates and parse each one
independently; an invalid LLM response or an exception yields `None`. -/
def fileExtractFaqs (llm : List Char → Except String (List Char))
    (parse : List Char → Option (List (String × JVal))) (context : List Char) :
    Option (List (List (String × JVal))) :=
  if context = [] then none
  else
    match llm (filePrompt context) with
    | .error _ => none
    | .ok content => some (fileProcessMatches parse (findAll content))

/-- Storing a list of already-parsed objects in order via
`_process_faq_data`. -/
def appendRows (st : ExtState) (os : List (List (String × JVal))) (url : String) : ExtState :=
  os.foldl (fun s o => processFaqData s o url) st

/-- The six parallel lists of the table have equal length. -/
def sameLengths (st : ExtState) : Prop :=
  st.organisation_name.length = st.URL.length ∧
    st.category.length = st.URL.length ∧
    st.question.length = st.URL.length ∧
    st.answer.length = st.URL.length ∧
    st.links.length = st.URL.length

/-- Each of the six lists of `st` is a prefix of the corresponding list of
`st'`: rows already stored are never modified, reordered or removed. -/
def tableExtends (st st' : ExtState) : Prop :=
  (∃ t, st'.organisation_name = st.organisation_name ++ t) ∧
    (∃ t, st'.category = st.category ++ t) ∧
    (∃ t, st'.question = st.question ++ t) ∧
    (∃ t, st'.answer = st.answer ++ t) ∧
    (∃ t, st'.links = st.links ++ t) ∧
    (∃ t, st'.URL = st.URL ++ t)

/-- A concrete stand-in for `json.loads` on the inputs of the concrete
scenarios below, agreeing with it there: the empty object `LR` parses to
the empty dict, and every other candidate of those scenarios (such as
`LfooR` or `LfR`) raises `json.JSONDecodeError`. -/
def parseStub (s : List Char) : Option (List (String × JVal)) :=
  if s = [lbrace, rbrace] then some [] else none

/-- Concrete oracle: the crawl succeeds with one character of content, the
LLM answers `LfooR LR`, and `json.loads` behaves as `parseStub`. -/
def oraclesBadThenGood : Oracles :=
  { crawlAttempt := fun _ _ => .ok ['c']
    llm := fun _ => .ok [lbrace, 'f', 'o', 'o', rbrace, ' ', lbrace, rbrace]
    parse := parseStub }

/-- Concrete oracle: the crawl succeeds, the LLM answers `LR LfR`, and
`json.loads` behaves as `parseStub`. -/
def oraclesGoodThenBad : Oracles :=
  { crawlAttempt := fun _ _ => .ok ['c']
    llm := fun _ => .ok [lbrace, rbrace, ' ', lbrace, 'f', rbrace]
    parse := parseStub }

/-- Concrete oracle: the crawl succeeds, the LLM answers `LR LR`, and
`json.loads` behaves as `parseStub`. -/
def oraclesTwoGood : Oracles :=
  { crawlAttempt := fun _ _ => .ok ['c']
    llm := fun _ => .ok [lbrace, rbrace, ' ', lbrace, rbrace]
    parse := parseStub }

/-- Concrete oracle on which every external call fails. -/
def oraclesCrash : Oracles :=
  { crawlAttempt := fun _ _ => .error "boom"
    llm := fun _ => .error "boom"
    parse := fun _ => none }

/-- A concrete one-row state used in witnesses. -/
def oneRowState : ExtState :=
  ⟨[JVal.str "o"], [JVal.str "c"], [JVal.str "q"], [JVal.str "a"], [JVal.str "l"],
    ["u"], []⟩

theorem braceScan_ge (s : List Char) (d f m : Nat)
    (h : braceScan s d = some (f, m)) : d ≤ m := by
  induction s generalizing d f m with
  | nil =>
    simp only [braceScan, Option.some_inj, Prod.mk.injEq] at h
    omega
  | cons c s ih =>
    simp only [braceScan] at h
    split at h
    · exact Nat.le_of_succ_le (ih (d + 1) f m h)
    · split at h
      · split at h
        · exact absurd h (by simp)
        · next d' =>
          rcases Option.map_eq_some'.mp h with ⟨⟨f', m'⟩, hf, he⟩
          simp only [Prod.mk.injEq] at he
          omega
      · exact ih d f m h

theorem braceScan_append (a b : List Char) (d : Nat) :
    braceScan (a ++ b) d =
      (braceScan a d).bind
        (fun p => (braceScan b p.1).map (fun q => (q.1, max p.2 q.2))) := by
  induction a generalizing d with
  | nil =>
    simp only [List.nil_append, braceScan, Option.bind_some]
    cases hb : braceScan b d with
    | none => simp [hb]
    | some q =>
      have := braceScan_ge b d q.1 q.2 hb
      simp [hb, Nat.max_eq_right this]
  | cons c a ih =>
    simp only [List.cons_append, braceScan]
    split
    · exact ih (d + 1)
    · split
      · cases d with
        | zero => simp
        | succ d' =>
          dsimp only
          rw [List.append_eq, ih d']
          cases ha : braceScan a d' with
          | none => simp
          | some p =>
            cases hb : braceScan b p.1 with
            | none => simp [hb]
            | some q => simp [hb, Nat.max_assoc]
      · exact ih d

theorem braceScan_cons_nb (c : Char) (s : List Char) (d : Nat) (h : isNB c = true) :
    braceScan (c :: s) d = braceScan s d := by
  simp only [isNB, Bool.and_eq_true, bne_iff_ne, ne_eq, decide_eq_true_eq] at h
  simp [braceScan, h.1, h.2]

theorem spanNB_split (s : List Char) : (spanNB s).1 ++ (spanNB s).2 = s := by
  induction s with
  | nil => rfl
  | cons c s ih =>
    by_cases h : isNB c = true
    · simp [spanNB, h, ih]
    · simp [spanNB, h]

theorem spanNB_scan (s : List Char) (d : Nat) :
    braceScan (spanNB s).1 d = some (d, d) := by
  induction s with
  | nil => rfl
  | cons c s ih =>
    by_cases h : isNB c = true
    · simp only [spanNB, h, if_true]
      rw [braceScan_cons_nb c _ d h]
      exact ih
    · simp [spanNB, h, braceScan]

theorem braceScan_single_rbrace (d : Nat) :
    braceScan [rbrace] (d + 1) = some (d, d + 1) := by
  simp [braceScan, lbrace, rbrace]

theorem braceScan_cons_lbrace (s : List Char) (d : Nat) :
    braceScan (lbrace :: s) d = braceScan s (d + 1) := by
  simp [braceScan]

/-- Scan of a complete group `L body R`: if the body keeps the depth fixed at
`d + 1` with maximum `mm`, the whole group returns to depth `d` with maximum
`max mm (d + 1)`. -/
theorem braceScan_group (b : List Char) (d mm : Nat)
    (hb : braceScan b (d + 1) = some (d + 1, mm)) :
    braceScan (lbrace :: b ++ [rbrace]) d = some (d, max mm (d + 1)) := by
  rw [List.cons_append, braceScan_cons_lbrace, braceScan_append, hb]
  simp [braceScan_single_rbrace]

theorem group1_eq (s m r : List Char) (h : group1 s = some (m, r)) :
    s = m ++ r ∧ ∀ d, braceScan m d = some (d, d + 1) := by
  cases s with
  | nil => simp [group1] at h
  | cons c s =>
    simp only [group1] at h
    by_cases hc : c = lbrace
    · rw [if_pos hc] at h
      cases hsp : (spanNB s).2 with
      | nil => rw [hsp] at h; exact absurd h (by simp)
      | cons r0 r' =>
        rw [hsp] at h
        dsimp only at h
        by_cases hr : r0 = rbrace
        · rw [if_pos hr] at h
          simp only [Option.some_inj, Prod.mk.injEq] at h
          obtain ⟨hm, hrr⟩ := h
          constructor
          · subst hm hrr hc hr
            have hsplit := spanNB_split s
            rw [hsp] at hsplit
            conv_lhs => rw [← hsplit]
            simp
          · intro d
            subst hm hr
            have := braceScan_group (spanNB s).1 d (d + 1) (spanNB_scan s (d + 1))
            simpa using this
        · rw [if_neg hr] at h; exact absurd h (by simp)
    · rw [if_neg hc] at h; exact absurd h (by simp)

theorem isNB_lbrace : isNB lbrace = false := by decide

theorem isNB_rbrace : isNB rbrace = false := by decide

theorem not_nb_cases (c : Char) (h : ¬isNB c = true) : c = lbrace ∨ c = rbrace := by
  simp only [isNB, Bool.and_eq_true, bne_iff_ne, ne_eq, decide_eq_true_eq, not_and_or,
    not_not] at h
  tauto

theorem body1_cons_nb (fuel : Nat) (c : Char) (s : List Char) (h : isNB c = true) :
    body1 (fuel + 1) (c :: s) = (c :: (body1 fuel s).1, (body1 fuel s).2) := by
  simp [body1, h]

theorem body1_cons_group (fuel : Nat) (s g rest : List Char)
    (h : group1 (lbrace :: s) = some (g, rest)) :
    body1 (fuel + 1) (lbrace :: s) = (g ++ (body1 fuel rest).1, (body1 fuel rest).2) := by
  simp [body1, isNB_lbrace, h]

theorem body1_cons_group_fail (fuel : Nat) (s : List Char)
    (h : group1 (lbrace :: s) = none) :
    body1 (fuel + 1) (lbrace :: s) = ([], lbrace :: s) := by
  simp [body1, isNB_lbrace, h]

theorem body1_cons_stop (fuel : Nat) (c : Char) (s : List Char) (hnb : ¬isNB c = true)
    (hlb : ¬c = lbrace) : body1 (fuel + 1) (c :: s) = ([], c :: s) := by
  simp [body1, hnb, hlb]

theorem body1_spec (fuel : Nat) (s : List Char) :
    (body1 fuel s).1 ++ (body1 fuel s).2 = s ∧
      ∀ d, ∃ mm, braceScan (body1 fuel s).1 d = some (d, mm) ∧ mm ≤ d + 1 := by
  induction fuel generalizing s with
  | zero => exact ⟨rfl, fun d => ⟨d, rfl, Nat.le_add_right d 1⟩⟩
  | succ fuel ih =>
    cases s with
    | nil => exact ⟨rfl, fun d => ⟨d, rfl, Nat.le_add_right d 1⟩⟩
    | cons c s =>
      by_cases hnb : isNB c = true
      · rw [body1_cons_nb fuel c s hnb]
        refine ⟨by simpa using (ih s).1, fun d => ?_⟩
        obtain ⟨mm, hm, hle⟩ := (ih s).2 d
        exact ⟨mm, by rw [braceScan_cons_nb c _ d hnb]; exact hm, hle⟩
      · by_cases hlb : c = lbrace
        · subst hlb
          cases hg : group1 (lbrace :: s) with
          | none =>
            rw [body1_cons_group_fail fuel s hg]
            exact ⟨rfl, fun d => ⟨d, rfl, Nat.le_add_right d 1⟩⟩
          | some p =>
            obtain ⟨g, rest⟩ := p
            obtain ⟨hsplit, hscan⟩ := group1_eq (lbrace :: s) g rest hg
            rw [body1_cons_group fuel s g rest hg]
            constructor
            · rw [List.append_assoc, (ih rest).1, ← hsplit]
            · intro d
              obtain ⟨mm, hm, hle⟩ := (ih rest).2 d
              refine ⟨max (d + 1) mm, ?_, by omega⟩
              rw [braceScan_append, hscan d]
              simp [hm]
        · rw [body1_cons_stop fuel c s hnb hlb]
          exact ⟨rfl, fun d => ⟨d, rfl, Nat.le_add_right d 1⟩⟩

theorem group2_eq (fuel : Nat) (s m r : List Char) (h : group2 fuel s = some (m, r)) :
    s = m ++ r ∧ ∀ d, ∃ mm, braceScan m d = some (d, mm) ∧ d + 1 ≤ mm ∧ mm ≤ d + 2 := by
  cases s with
  | nil => simp [group2] at h
  | cons c s =>
    simp only [group2] at h
    by_cases hc : c = lbrace
    · rw [if_pos hc] at h
      cases hsp : (body1 fuel s).2 with
      | nil => rw [hsp] at h; exact absurd h (by simp)
      | cons r0 r' =>
        rw [hsp] at h
        dsimp only at h
        by_cases hr : r0 = rbrace
        · rw [if_pos hr] at h
          simp only [Option.some_inj, Prod.mk.injEq] at h
          obtain ⟨hm, hrr⟩ := h
          constructor
          · subst hm hrr hc hr
            have hsplit := (body1_spec fuel s).1
            rw [hsp] at hsplit
            conv_lhs => rw [← hsplit]
            simp
          · intro d
            subst hm hr
            obtain ⟨mm, hscan, hle⟩ := (body1_spec fuel s).2 (d + 1)
            have := braceScan_group (body1 fuel s).1 d mm hscan
            exact ⟨max mm (d + 1), this, by omega, by omega⟩
        · rw [if_neg hr] at h; exact absurd h (by simp)
    · rw [if_neg hc] at h; exact absurd h (by simp)

theorem body2_cons_nb (fuel : Nat) (c : Char) (s : List Char) (h : isNB c = true) :
    body2 (fuel + 1) (c :: s) = (c :: (body2 fuel s).1, (body2 fuel s).2) := by
  simp [body2, h]

theorem body2_cons_group (fuel : Nat) (s g rest : List Char)
    (h : group2 fuel (lbrace :: s) = some (g, rest)) :
    body2 (fuel + 1) (lbrace :: s) = (g ++ (body2 fuel rest).1, (body2 fuel rest).2) := by
  simp [body2, isNB_lbrace, h]

theorem body2_cons_group_fail (fuel : Nat) (s : List Char)
    (h : group2 fuel (lbrace :: s) = none) :
    body2 (fuel + 1) (lbrace :: s) = ([], lbrace :: s) := by
  simp [body2, isNB_lbrace, h]

theorem body2_cons_stop (fuel : Nat) (c : Char) (s : List Char) (hnb : ¬isNB c = true)
    (hlb : ¬c = lbrace) : body2 (fuel + 1) (c :: s) = ([], c :: s) := by
  simp [body2, hnb, hlb]

theorem body2_spec (fuel : Nat) (s : List Char) :
    (body2 fuel s).1 ++ (body2 fuel s).2 = s ∧
      ∀ d, ∃ mm, braceScan (body2 fuel s).1 d = some (d, mm) ∧ mm ≤ d + 2 := by
  induction fuel generalizing s with
  | zero => exact ⟨rfl, fun d => ⟨d, rfl, Nat.le_add_right d 2⟩⟩
  | succ fuel ih =>
    cases s with
    | nil => exact ⟨rfl, fun d => ⟨d, rfl, Nat.le_add_right d 2⟩⟩
    | cons c s =>
      by_cases hnb : isNB c = true
      · rw [body2_cons_nb fuel c s hnb]
        refine ⟨by simpa using (ih s).1, fun d => ?_⟩
        obtain ⟨mm, hm, hle⟩ := (ih s).2 d
        exact ⟨mm, by rw [braceScan_cons_nb c _ d hnb]; exact hm, hle⟩
      · by_cases hlb : c = lbrace
        · subst hlb
          cases hg : group2 fuel (lbrace :: s) with
          | none =>
            rw [body2_cons_group_fail fuel s hg]
            exact ⟨rfl, fun d => ⟨d, rfl, Nat.le_add_right d 2⟩⟩
          | some p =>
            obtain ⟨g, rest⟩ := p
            obtain ⟨hsplit, hscan⟩ := group2_eq fuel (lbrace :: s) g rest hg
            rw [body2_cons_group fuel s g rest hg]
            constructor
            · rw [List.append_assoc, (ih rest).1, ← hsplit]
            · intro d
              obtain ⟨mm, hm, hle⟩ := (ih rest).2 d
              obtain ⟨mg, hmg, hg1, hg2⟩ := hscan d
              refine ⟨max mg mm, ?_, by omega⟩
              rw [braceScan_append, hmg]
              simp [hm]
        · rw [body2_cons_stop fuel c s hnb hlb]
          exact ⟨rfl, fun d => ⟨d, rfl, Nat.le_add_right d 2⟩⟩

theorem group3_eq (fuel : Nat) (s m r : List Char) (h : group3 fuel s = some (m, r)) :
    s = m ++ r ∧ m.head? = some lbrace ∧ m.getLast? = some rbrace ∧
      ∃ k, balancedDepth m = some k ∧ 1 ≤ k ∧ k ≤ 3 := by
  cases s with
  | nil => simp [group3] at h
  | cons c s =>
    simp only [group3] at h
    by_cases hc : c = lbrace
    · rw [if_pos hc] at h
      cases hsp : (body2 fuel s).2 with
      | nil => rw [hsp] at h; exact absurd h (by simp)
      | cons r0 r' =>
        rw [hsp] at h
        dsimp only at h
        by_cases hr : r0 = rbrace
        · rw [if_pos hr] at h
          simp only [Option.some_inj, Prod.mk.injEq] at h
          obtain ⟨hm, hrr⟩ := h
          refine ⟨?_, ?_, ?_, ?_⟩
          · subst hm hrr hc hr
            have hsplit := (body2_spec fuel s).1
            rw [hsp] at hsplit
            conv_lhs => rw [← hsplit]
            simp
          · subst hm; rfl
          · subst hm hr
            rw [List.getLast?_concat]
          · subst hm hr
            obtain ⟨mm, hscan, hle⟩ := (body2_spec fuel s).2 1
            have := braceScan_group (body2 fuel s).1 0 mm hscan
            refine ⟨max mm 1, ?_, by omega, by omega⟩
            simp only [balancedDepth, this]
        · rw [if_neg hr] at h; exact absurd h (by simp)
    · rw [if_neg hc] at h; exact absurd h (by simp)

theorem findAllAux_mem (fuel : Nat) (s m : List Char) (h : m ∈ findAllAux fuel s) :
    m.head? = some lbrace ∧ m.getLast? = some rbrace ∧
      ∃ k, balancedDepth m = some k ∧ 1 ≤ k ∧ k ≤ 3 := by
  induction fuel generalizing s with
  | zero => simp [findAllAux] at h
  | succ fuel ih =>
    cases s with
    | nil => simp [findAllAux] at h
    | cons c s =>
      rw [findAllAux] at h
      cases hg : group3 fuel (c :: s) with
      | none =>
        rw [hg] at h
        exact ih s h
      | some p =>
        obtain ⟨g, rest⟩ := p
        rw [hg] at h
        dsimp only at h
        rcases List.mem_cons.mp h with h1 | h2
        · subst h1
          obtain ⟨_, h2, h3, h4⟩ := group3_eq fuel (c :: s) m rest hg
          exact ⟨h2, h3, h4⟩
        · exact ih rest h2

/-- C1: every candidate substring produced by the JSON-extraction regex
(`re.findall` with the balanced-brace pattern in
`FAQExtractor._extract_json_from_response` of src/commonscrape.py and
`FAQExtractor.extract_faqs` of src/file.py) starts with an opening brace,
ends with a closing brace, has balanced curly braces, and has brace-nesting
depth at most three; consequently a JSON object whose braces nest deeper
than three levels is never matched in its entirety. -/
theorem C1_candidates_balanced_depth_le_three (s : List Char) :
    (∀ m, m ∈ findAll s → m.head? = some lbrace ∧ m.getLast? = some rbrace ∧
        ∃ k, balancedDepth m = some k ∧ k ≤ 3) ∧
    (∀ t k, balancedDepth t = some k → 3 < k → t ∉ findAll s) := by
  constructor
  · intro m hm
    obtain ⟨h1, h2, k, h3, _, h4⟩ := findAllAux_mem _ s m hm
    exact ⟨h1, h2, k, h3, h4⟩
  · intro t k hbd hk ht
    obtain ⟨_, _, k', h3, _, h4⟩ := findAllAux_mem _ s t ht
    rw [hbd] at h3
    simp only [Option.some_inj] at h3
    omega

/-- Witness for C1: the two-character candidate consisting of the two braces
is matched in `LR` and satisfies the bounds, and the fully balanced
depth-four string is not matched in its entirety in itself. -/
theorem C1_candidates_balanced_depth_le_three_witness :
    (([lbrace, rbrace]).head? = some lbrace ∧
      ([lbrace, rbrace]).getLast? = some rbrace ∧
      ∃ k, balancedDepth [lbrace, rbrace] = some k ∧ k ≤ 3) ∧
    [lbrace, lbrace, lbrace, lbrace, rbrace, rbrace, rbrace, rbrace] ∉
      findAll [lbrace, lbrace, lbrace, lbrace, rbrace, rbrace, rbrace, rbrace] :=
  ⟨(C1_candidates_balanced_depth_le_three [lbrace, rbrace]).1 [lbrace, rbrace] (by decide),
   (C1_candidates_balanced_depth_le_three
      [lbrace, lbrace, lbrace, lbrace, rbrace, rbrace, rbrace, rbrace]).2
      [lbrace, lbrace, lbrace, lbrace, rbrace, rbrace, rbrace, rbrace] 4
      (by decide) (by decide)⟩

/-- C5: contrary to the claim, the retry wrapper never re-attempts a failed
crawl. `_crawl_website`'s own `except` clause converts every exception into
a normal `None` return before tenacity can observe it, so for every oracle
(including one whose crawl attempts all raise) the decorated call performs
exactly one attempt and returns the first attempt's outcome. -/
theorem C5_crawl_retry_never_fires (O : Oracles) (url : String) (nc : List String) :
    (crawlWebsiteRetry O url nc).2 = 1 ∧
      (crawlWebsiteRetry O url nc).1 = crawlBody O url 0 nc := by
  cases h : O.crawlAttempt url 0 with
  | ok md => simp [crawlWebsiteRetry, tenacityRun, crawlBody, h]
  | error e => simp [crawlWebsiteRetry, tenacityRun, crawlBody, h]

theorem processCandidates_cons_ok (O : Oracles) (url : String) (st : ExtState)
    (c : List Char) (cs : List (List Char)) (o : List (String × JVal))
    (h : O.parse c = some o) :
    processCandidates O url st (c :: cs) =
      processCandidates O url (processFaqData st o url) cs := by
  simp [processCandidates, h]

theorem processCandidates_cons_fail (O : Oracles) (url : String) (st : ExtState)
    (c : List Char) (cs : List (List Char)) (h : O.parse c = none) :
    processCandidates O url st (c :: cs) = (st, false) := by
  simp [processCandidates, h]

theorem fileProcessMatches_go (parse : List Char → Option (List (String × JVal)))
    (ms : List (List Char)) (acc : List (List (String × JVal))) :
    ms.foldl
        (fun acc m =>
          match parse m with
          | some o => acc ++ [o]
          | none => acc) acc = acc ++ ms.filterMap parse := by
  induction ms generalizing acc with
  | nil => simp
  | cons m ms ih =>
    cases h : parse m with
    | none => simp [List.foldl_cons, h, ih, List.filterMap_cons]
    | some o => simp [List.foldl_cons, h, ih, List.filterMap_cons]

theorem processCandidates_flag (O : Oracles) (url : String) (st : ExtState)
    (cs : List (List Char)) :
    (processCandidates O url st cs).2 = true ↔ ∀ c ∈ cs, (O.parse c).isSome := by
  induction cs generalizing st with
  | nil => simp [processCandidates]
  | cons c cs ih =>
    cases h : O.parse c with
    | none =>
      rw [processCandidates_cons_fail O url st c cs h]
      simp [h]
    | some o =>
      rw [processCandidates_cons_ok O url st c cs o h]
      simp [h, ih]

/-- C2 (amended): in src/file.py's `extract_faqs` every candidate that fails
`json.loads` is silently skipped and all remaining candidates are parsed
and appended in order — the per-match loop computes exactly
`filterMap parse` of the candidate list; in src/commonscrape.py's
`process_single_url`, by contrast, the storage loop completes without
raising iff every candidate parses, a single failure aborting it. -/
theorem C2_parse_failure_handling
    (parse : List Char → Option (List (String × JVal))) (ms : List (List Char))
    (O : Oracles) (url : String) (st : ExtState) :
    fileProcessMatches parse ms = ms.filterMap parse ∧
      ((processCandidates O url st ms).2 = true ↔ ∀ c ∈ ms, (O.parse c).isSome) :=
  ⟨by simpa using fileProcessMatches_go parse ms [], processCandidates_flag O url st ms⟩

/-- C2 counterexample, on src/commonscrape.py: the LLM response yields the
candidates `LfooR` and `LR`; the first fails to parse and, contrary to the
claim, the failure is not silently discarded: the remaining candidate `LR`,
although it parses successfully, is never processed (no row is stored) and
the failure propagates to the caller as the empty-dict result. -/
theorem C2_counterexample :
    extractJsonFromResponse [lbrace, 'f', 'o', 'o', rbrace, ' ', lbrace, rbrace]
        = [[lbrace, 'f', 'o', 'o', rbrace], [lbrace, rbrace]] ∧
      parseStub [lbrace, rbrace] = some [] ∧
      (processSingleUrl oraclesBadThenGood initState "u").1.isNone = true ∧
      (processSingleUrl oraclesBadThenGood initState "u").2.URL = [] :=
  ⟨rfl, rfl, rfl, rfl⟩

theorem lookup_append_self (l : List (String × JVal)) (f : String) (v : JVal)
    (h : l.lookup f = none) : (l ++ [(f, v)]).lookup f = some v := by
  induction l with
  | nil => simp [List.lookup]
  | cons p l ih =>
    obtain ⟨a, b⟩ := p
    by_cases hf : (f == a) = true
    · simp [List.lookup, hf] at h
    · simp only [List.cons_append, List.lookup, hf] at h ⊢
      exact ih h

theorem lookup_append_ne (l : List (String × JVal)) (f g : String) (v : JVal)
    (h : ¬(f == g) = true) : (l ++ [(g, v)]).lookup f = l.lookup f := by
  induction l with
  | nil => simp [List.lookup, h]
  | cons p l ih =>
    obtain ⟨a, b⟩ := p
    by_cases hf : (f == a) = true <;>
      simp only [List.cons_append, List.lookup, List.append_eq, hf, ih]

theorem fillOne_lookup_self (acc : List (String × JVal)) (f : String) :
    (fillOne acc f).lookup f = some ((acc.lookup f).getD sentinel) := by
  unfold fillOne
  cases h : acc.lookup f with
  | some v => simp [h]
  | none => simp [h, lookup_append_self acc f sentinel h]

theorem fillOne_lookup_ne (acc : List (String × JVal)) (f g : String)
    (h : ¬(f == g) = true) : (fillOne acc g).lookup f = acc.lookup f := by
  unfold fillOne
  cases hg : acc.lookup g with
  | some v => rfl
  | none => exact lookup_append_ne acc f g sentinel h

theorem foldl_fillOne_preserve (fs : List String) (acc : List (String × JVal))
    (f : String) (v : JVal) (h : acc.lookup f = some v) :
    (fs.foldl fillOne acc).lookup f = some v := by
  induction fs generalizing acc with
  | nil => simpa using h
  | cons g fs ih =>
    rw [List.foldl_cons]
    apply ih
    by_cases hfg : (f == g) = true
    · have hfg' : f = g := by simpa using hfg
      subst hfg'
      simp [fillOne, h]
    · rw [fillOne_lookup_ne acc f g hfg]
      exact h

theorem foldl_fillOne_spec (fs : List String) (hnd : fs.Nodup)
    (acc : List (String × JVal)) (f : String) (hf : f ∈ fs) :
    ((fs.foldl fillOne acc).lookup f).isSome = true ∧
      (acc.lookup f = none → (fs.foldl fillOne acc).lookup f = some sentinel) ∧
      (∀ v, acc.lookup f = some v → (fs.foldl fillOne acc).lookup f = some v) := by
  induction fs generalizing acc with
  | nil => simp at hf
  | cons g fs ih =>
    rw [List.foldl_cons]
    rcases List.mem_cons.mp hf with h1 | h2
    · subst h1
      have hself := fillOne_lookup_self acc f
      have hpres := foldl_fillOne_preserve fs (fillOne acc f) f _ hself
      refine ⟨by simp [hpres], fun hnone => ?_, fun v hv => ?_⟩
      · rw [hnone] at hpres
        simpa using hpres
      · rw [hv] at hpres
        simpa using hpres
    · obtain ⟨hg, hnd'⟩ := List.nodup_cons.mp hnd
      have hfg : ¬(f == g) = true := by
        simp only [beq_iff_eq]
        rintro rfl
        exact hg h2
      have hres := ih hnd' (fillOne acc g) h2
      rwa [fillOne_lookup_ne acc f g hfg] at hres

/-- C3: after the default-filling loop of `_process_faq_data`, each of the
five expected fields (`organisation_name`, `category`, `question`,
`answer`, `links`) is present in the object: a field absent from the parsed
object is set to the sentinel "Not available", and a field already present
keeps its parsed value unchanged. -/
theorem C3_fill_defaults (o : List (String × JVal)) (f : String)
    (hf : f ∈ expectedFields) :
    ((fillDefaults o).lookup f).isSome = true ∧
      (o.lookup f = none → (fillDefaults o).lookup f = some sentinel) ∧
      (∀ v, o.lookup f = some v → (fillDefaults o).lookup f = some v) :=
  foldl_fillOne_spec expectedFields (by decide) o f hf

/-- Witness for C3 at the one-field object whose question is "q" and at the
fields "question" (present) and "answer" (absent). -/
theorem C3_fill_defaults_witness :
    ("question" ∈ expectedFields ∧
      ∀ v, [("question", JVal.str "q")].lookup "question" = some v →
        (fillDefaults [("question", JVal.str "q")]).lookup "question" = some v) ∧
      ("answer" ∈ expectedFields ∧
        ([("question", JVal.str "q")].lookup "answer" = none →
          (fillDefaults [("question", JVal.str "q")]).lookup "answer" = some sentinel)) :=
  ⟨⟨by decide, (C3_fill_defaults [("question", JVal.str "q")] "question" (by decide)).2.2⟩,
    ⟨by decide, (C3_fill_defaults [("question", JVal.str "q")] "answer" (by decide)).2.1⟩⟩

/-- The state produced by `process_single_url` is always one of: the input
state (already-processed URL), the input state with only `notcollected`
changed (failure before storage), or the state left by the storage loop run
on such a state. -/
theorem processSingleUrl_state_cases (O : Oracles) (st : ExtState) (url : String) :
    (processSingleUrl O st url).2 = st ∨
      (∃ nc', (processSingleUrl O st url).2 = { st with notcollected := nc' }) ∨
      (∃ nc' cs, (processSingleUrl O st url).2 =
        (processCandidates O url { st with notcollected := nc' } cs).1) := by
  unfold processSingleUrl
  by_cases hm : url ∈ st.URL
  · rw [if_pos hm]
    exact Or.inl rfl
  · rw [if_neg hm]
    obtain ⟨⟨res, nc'⟩, hcr⟩ : ∃ p, (crawlWebsiteRetry O url st.notcollected).1 = p :=
      ⟨_, rfl⟩
    rw [hcr]
    cases res with
    | error e => exact Or.inr (Or.inl ⟨nc', rfl⟩)
    | ok ctxOpt =>
      cases ctxOpt with
      | none => exact Or.inr (Or.inl ⟨nc', rfl⟩)
      | some ctx =>
        dsimp only
        by_cases hctx : ctx = []
        · rw [if_pos hctx]
          exact Or.inr (Or.inl ⟨nc', rfl⟩)
        · rw [if_neg hctx]
          obtain ⟨lr, hlr⟩ : ∃ r, O.llm (createExtractionTemplate ctx) = r := ⟨_, rfl⟩
          rw [hlr]
          cases lr with
          | error e => exact Or.inr (Or.inl ⟨nc', rfl⟩)
          | ok content =>
            dsimp only
            obtain ⟨⟨st2, flag⟩, hpc⟩ :
                ∃ p, processCandidates O url { st with notcollected := nc' }
                  (extractJsonFromResponse content) = p := ⟨_, rfl⟩
            rw [hpc]
            cases flag with
            | true =>
              exact Or.inr (Or.inr ⟨nc', extractJsonFromResponse content, by rw [hpc]⟩)
            | false =>
              exact Or.inr (Or.inr ⟨nc', extractJsonFromResponse content, by rw [hpc]⟩)

theorem sameLengths_processFaqData (st : ExtState) (o : List (String × JVal))
    (url : String) (h : sameLengths st) : sameLengths (processFaqData st o url) := by
  obtain ⟨h1, h2, h3, h4, h5⟩ := h
  simp [sameLengths, processFaqData, h1, h2, h3, h4, h5]

theorem sameLengths_processCandidates (O : Oracles) (url : String)
    (cs : List (List Char)) (st : ExtState) (h : sameLengths st) :
    sameLengths (processCandidates O url st cs).1 := by
  induction cs generalizing st with
  | nil => exact h
  | cons c cs ih =>
    cases hp : O.parse c with
    | some o =>
      rw [processCandidates_cons_ok O url st c cs o hp]
      exact ih _ (sameLengths_processFaqData st o url h)
    | none =>
      rw [processCandidates_cons_fail O url st c cs hp]
      exact h

theorem sameLengths_processSingleUrl (O : Oracles) (st : ExtState) (url : String)
    (h : sameLengths st) : sameLengths (processSingleUrl O st url).2 := by
  rcases processSingleUrl_state_cases O st url with h1 | ⟨nc', h1⟩ | ⟨nc', cs, h1⟩ <;>
    rw [h1]
  · exact h
  · exact h
  · exact sameLengths_processCandidates O url cs _ h

theorem sameLengths_foldl (O : Oracles) (l : List String) (st : ExtState)
    (h : sameLengths st) :
    sameLengths (l.foldl (fun s u => (processSingleUrl O s u).2) st) := by
  induction l generalizing st with
  | nil => exact h
  | cons u l ih =>
    rw [List.foldl_cons]
    exact ih _ (sameLengths_processSingleUrl O st u h)

theorem sameLengths_extractFaqs (O : Oracles) (st : ExtState) (urls : UrlsArg)
    (mx : Option Int) (h : sameLengths st) : sameLengths (extractFaqs O st urls mx) := by
  cases urls with
  | single u => exact sameLengths_processSingleUrl O st u h
  | many l =>
    unfold extractFaqs
    exact sameLengths_foldl O _ st h

/-- C4: the six lists of the extractor's table always have equal length:
they are all empty after initialization, every operation (storing one FAQ
record, processing one URL, processing a list of URLs) preserves the
equality, and storing a record places that record's five field values and
its source URL at the same fresh index of the six lists. -/
theorem C4_parallel_lists_invariant :
    (sameLengths initState ∧ initState.URL = [] ∧
      initState.organisation_name = [] ∧ initState.category = [] ∧
      initState.question = [] ∧ initState.answer = [] ∧ initState.links = []) ∧
    (∀ st o url, sameLengths st → sameLengths (processFaqData st o url)) ∧
    (∀ O st url, sameLengths st → sameLengths (processSingleUrl O st url).2) ∧
    (∀ O st urls mx, sameLengths st → sameLengths (extractFaqs O st urls mx)) ∧
    (∀ st o url, sameLengths st →
      (processFaqData st o url).URL.get? st.URL.length = some url ∧
      (processFaqData st o url).organisation_name.get? st.URL.length
          = some (getField (fillDefaults o) "organisation_name") ∧
      (processFaqData st o url).category.get? st.URL.length
          = some (getField (fillDefaults o) "category") ∧
      (processFaqData st o url).question.get? st.URL.length
          = some (getField (fillDefaults o) "question") ∧
      (processFaqData st o url).answer.get? st.URL.length
          = some (getField (fillDefaults o) "answer") ∧
      (processFaqData st o url).links.get? st.URL.length
          = some (getField (fillDefaults o) "links")) := by
  refine ⟨⟨⟨rfl, rfl, rfl, rfl, rfl⟩, rfl, rfl, rfl, rfl, rfl, rfl⟩,
    sameLengths_processFaqData, sameLengths_processSingleUrl,
    sameLengths_extractFaqs, fun st o url h => ?_⟩
  obtain ⟨h1, h2, h3, h4, h5⟩ := h
  refine ⟨?_, ?_, ?_, ?_, ?_, ?_⟩ <;> simp only [processFaqData]
  · exact List.get?_concat_length st.URL url
  · rw [← h1]; exact List.get?_concat_length _ _
  · rw [← h2]; exact List.get?_concat_length _ _
  · rw [← h3]; exact List.get?_concat_length _ _
  · rw [← h4]; exact List.get?_concat_length _ _
  · rw [← h5]; exact List.get?_concat_length _ _

/-- Witness for C4 at the empty state and the empty parsed object. -/
theorem C4_parallel_lists_invariant_witness :
    sameLengths initState ∧ sameLengths (processFaqData initState [] "u") ∧
      (processFaqData initState [] "u").URL.get? 0 = some "u" :=
  ⟨⟨rfl, rfl, rfl, rfl, rfl⟩,
    C4_parallel_lists_invariant.2.1 initState [] "u" ⟨rfl, rfl, rfl, rfl, rfl⟩,
    (C4_parallel_lists_invariant.2.2.2.2 initState [] "u" ⟨rfl, rfl, rfl, rfl, rfl⟩).1⟩

theorem tableExtends_refl (st : ExtState) : tableExtends st st :=
  ⟨⟨[], by simp⟩, ⟨[], by simp⟩, ⟨[], by simp⟩, ⟨[], by simp⟩, ⟨[], by simp⟩,
    ⟨[], by simp⟩⟩

theorem tableExtends_trans (s1 s2 s3 : ExtState) (h1 : tableExtends s1 s2)
    (h2 : tableExtends s2 s3) : tableExtends s1 s3 := by
  obtain ⟨⟨a1, e1⟩, ⟨a2, e2⟩, ⟨a3, e3⟩, ⟨a4, e4⟩, ⟨a5, e5⟩, ⟨a6, e6⟩⟩ := h1
  obtain ⟨⟨b1, f1⟩, ⟨b2, f2⟩, ⟨b3, f3⟩, ⟨b4, f4⟩, ⟨b5, f5⟩, ⟨b6, f6⟩⟩ := h2
  exact ⟨⟨a1 ++ b1, by simp [f1, e1]⟩, ⟨a2 ++ b2, by simp [f2, e2]⟩,
    ⟨a3 ++ b3, by simp [f3, e3]⟩, ⟨a4 ++ b4, by simp [f4, e4]⟩,
    ⟨a5 ++ b5, by simp [f5, e5]⟩, ⟨a6 ++ b6, by simp [f6, e6]⟩⟩

theorem tableExtends_processFaqData (st : ExtState) (o : List (String × JVal))
    (url : String) : tableExtends st (processFaqData st o url) :=
  ⟨⟨_, rfl⟩, ⟨_, rfl⟩, ⟨_, rfl⟩, ⟨_, rfl⟩, ⟨_, rfl⟩, ⟨_, rfl⟩⟩

theorem tableExtends_setNc (st : ExtState) (nc : List String) :
    tableExtends st { st with notcollected := nc } :=
  ⟨⟨[], by simp⟩, ⟨[], by simp⟩, ⟨[], by simp⟩, ⟨[], by simp⟩, ⟨[], by simp⟩,
    ⟨[], by simp⟩⟩

theorem tableExtends_processCandidates (O : Oracles) (url : String)
    (cs : List (List Char)) (st : ExtState) :
    tableExtends st (processCandidates O url st cs).1 := by
  induction cs generalizing st with
  | nil => exact tableExtends_refl st
  | cons c cs ih =>
    cases hp : O.parse c with
    | some o =>
      rw [processCandidates_cons_ok O url st c cs o hp]
      exact tableExtends_trans _ _ _ (tableExtends_processFaqData st o url)
        (ih (processFaqData st o url))
    | none =>
      rw [processCandidates_cons_fail O url st c cs hp]
      exact tableExtends_refl st

theorem tableExtends_processSingleUrl (O : Oracles) (st : ExtState) (url : String) :
    tableExtends st (processSingleUrl O st url).2 := by
  rcases processSingleUrl_state_cases O st url with h1 | ⟨nc', h1⟩ | ⟨nc', cs, h1⟩ <;>
    rw [h1]
  · exact tableExtends_refl st
  · exact tableExtends_setNc st nc'
  · exact tableExtends_trans _ _ _ (tableExtends_setNc st nc')
      (tableExtends_processCandidates O url cs _)

theorem tableExtends_foldl (O : Oracles) (l : List String) (st : ExtState) :
    tableExtends st (l.foldl (fun s u => (processSingleUrl O s u).2) st) := by
  induction l generalizing st with
  | nil => exact tableExtends_refl st
  | cons u l ih =>
    rw [List.foldl_cons]
    exact tableExtends_trans _ _ _ (tableExtends_processSingleUrl O st u)
      (ih (processSingleUrl O st u).2)

/-- C7: accumulation into the table is linear and append-only: processing a
URL and processing a list of URLs only ever append rows at the end of the
six parallel lists (each input list is a prefix of the corresponding output
list), so rows stored by earlier operations are never modified, reordered
or removed by later ones. -/
theorem C7_append_only (O : Oracles) (st : ExtState) (url : String)
    (urls : UrlsArg) (mx : Option Int) :
    tableExtends st (processSingleUrl O st url).2 ∧
      tableExtends st (extractFaqs O st urls mx) := by
  refine ⟨tableExtends_processSingleUrl O st url, ?_⟩
  cases urls with
  | single u => exact tableExtends_processSingleUrl O st u
  | many l => exact tableExtends_foldl O _ st

/-- `list.index(url)` (Python) returns the first index of `url`; here:
`findIdx?` returns `i` when `url` sits at `i` and at no earlier index. -/
theorem findIdx_first (l : List String) (url : String) (i : Nat)
    (h1 : l.get? i = some url) (h2 : ∀ j, j < i → l.get? j ≠ some url) :
    l.findIdx? (· == url) = some i := by
  induction l generalizing i with
  | nil => simp at h1
  | cons a l ih =>
    rw [List.findIdx?_cons, List.findIdx?_succ]
    cases i with
    | zero =>
      simp only [List.get?_cons_zero, Option.some_inj] at h1
      subst h1
      simp
    | succ i =>
      have ha : ¬(a == url) = true := by
        have := h2 0 (Nat.succ_pos i)
        simp only [List.get?_cons_zero, ne_eq, Option.some_inj] at this
        simpa using this
      rw [if_neg ha]
      have hrec := ih i (by simpa using h1)
        (fun j hj => by
          have := h2 (j + 1) (Nat.succ_lt_succ hj)
          simpa using this)
      rw [hrec]
      rfl

/-- C8: processing a URL that is already recorded is idempotent:
`process_single_url` performs no crawl and no storage, leaves the state
completely unchanged, and returns `_get_url_data`, the row at the first
index of the URL in the URL column. -/
theorem C8_idempotent_on_recorded_url (O : Oracles) (st : ExtState) (url : String)
    (h : url ∈ st.URL) :
    processSingleUrl O st url = (getUrlData st url, st) ∧
      ∀ i, st.URL.get? i = some url → (∀ j, j < i → st.URL.get? j ≠ some url) →
        getUrlData st url = rowAt st i url := by
  constructor
  · unfold processSingleUrl
    rw [if_pos h]
  · intro i h1 h2
    unfold getUrlData
    rw [findIdx_first st.URL url i h1 h2]

/-- Witness for C8 at a one-row state whose URL column is `["u"]`, with an
oracle on which every external call fails: the call still returns the
stored row with the state untouched. -/
theorem C8_idempotent_on_recorded_url_witness :
    "u" ∈ oneRowState.URL ∧
      processSingleUrl oraclesCrash oneRowState "u" =
        (getUrlData oneRowState "u", oneRowState) ∧
      getUrlData oneRowState "u" = rowAt oneRowState 0 "u" :=
  ⟨by decide,
    (C8_idempotent_on_recorded_url oraclesCrash oneRowState "u" (by decide)).1,
    (C8_idempotent_on_recorded_url oraclesCrash oneRowState "u" (by decide)).2 0
      (by decide) (fun j hj => absurd hj (Nat.not_lt_zero j))⟩

theorem crawlWebsiteRetry_ok (O : Oracles) (url : String) (nc : List String)
    (ctx : List Char) (h : O.crawlAttempt url 0 = .ok ctx) :
    (crawlWebsiteRetry O url nc).1 = (.ok (some ctx), nc) := by
  simp [crawlWebsiteRetry, tenacityRun, crawlBody, h]

theorem crawlWebsiteRetry_error (O : Oracles) (url : String) (nc : List String)
    (e : String) (h : O.crawlAttempt url 0 = .error e) :
    (crawlWebsiteRetry O url nc).1 = (.ok none, nc ++ [url]) := by
  simp [crawlWebsiteRetry, tenacityRun, crawlBody, h]

theorem processSingleUrl_crawl_error (O : Oracles) (st : ExtState) (url : String)
    (e : String) (hm : ¬url ∈ st.URL) (h : O.crawlAttempt url 0 = .error e) :
    processSingleUrl O st url =
      (none, { st with notcollected := st.notcollected ++ [url] }) := by
  unfold processSingleUrl
  rw [if_neg hm, crawlWebsiteRetry_error O url st.notcollected e h]

theorem processSingleUrl_empty_ctx (O : Oracles) (st : ExtState) (url : String)
    (hm : ¬url ∈ st.URL) (h : O.crawlAttempt url 0 = .ok []) :
    processSingleUrl O st url = (none, st) := by
  unfold processSingleUrl
  rw [if_neg hm, crawlWebsiteRetry_ok O url st.notcollected [] h]
  rfl

theorem processSingleUrl_llm_error (O : Oracles) (st : ExtState) (url : String)
    (ctx : List Char) (e : String) (hm : ¬url ∈ st.URL)
    (hcr : O.crawlAttempt url 0 = .ok ctx) (hctx : ctx ≠ [])
    (hllm : O.llm (createExtractionTemplate ctx) = .error e) :
    processSingleUrl O st url = (none, st) := by
  unfold processSingleUrl
  rw [if_neg hm, crawlWebsiteRetry_ok O url st.notcollected ctx hcr]
  dsimp only
  rw [if_neg hctx, hllm]

theorem processCandidates_prefix_ok (O : Oracles) (url : String)
    (pre : List (List Char)) (bad : List Char) (rest : List (List Char))
    (st : ExtState) (hpre : ∀ c ∈ pre, (O.parse c).isSome)
    (hbad : O.parse bad = none) :
    processCandidates O url st (pre ++ bad :: rest) =
      (appendRows st (pre.filterMap O.parse) url, false) := by
  induction pre generalizing st with
  | nil =>
    rw [List.nil_append, processCandidates_cons_fail O url st bad rest hbad]
    simp [appendRows]
  | cons c pre ih =>
    obtain ⟨o, ho⟩ := Option.isSome_iff_exists.mp (hpre c (List.mem_cons_self c pre))
    rw [List.cons_append, processCandidates_cons_ok O url st c _ o ho,
      ih (processFaqData st o url) (fun x hx => hpre x (List.mem_cons_of_mem c hx))]
    simp [appendRows, List.filterMap_cons, ho]

theorem processCandidates_all_ok (O : Oracles) (url : String)
    (cs : List (List Char)) (st : ExtState)
    (h : ∀ c ∈ cs, (O.parse c).isSome) :
    processCandidates O url st cs =
      (appendRows st (cs.filterMap O.parse) url, true) := by
  induction cs generalizing st with
  | nil => simp [processCandidates, appendRows]
  | cons c cs ih =>
    obtain ⟨o, ho⟩ := Option.isSome_iff_exists.mp (h c (List.mem_cons_self c cs))
    rw [processCandidates_cons_ok O url st c cs o ho,
      ih (processFaqData st o url) (fun x hx => h x (List.mem_cons_of_mem c hx))]
    simp [appendRows, List.filterMap_cons, ho]

theorem processSingleUrl_parse_fail (O : Oracles) (st : ExtState) (url : String)
    (ctx content : List Char) (pre : List (List Char)) (bad : List Char)
    (rest : List (List Char)) (hm : ¬url ∈ st.URL)
    (hcr : O.crawlAttempt url 0 = .ok ctx) (hctx : ctx ≠ [])
    (hllm : O.llm (createExtractionTemplate ctx) = .ok content)
    (hcands : extractJsonFromResponse content = pre ++ bad :: rest)
    (hpre : ∀ c ∈ pre, (O.parse c).isSome) (hbad : O.parse bad = none) :
    processSingleUrl O st url = (none, appendRows st (pre.filterMap O.parse) url) := by
  unfold processSingleUrl
  rw [if_neg hm, crawlWebsiteRetry_ok O url st.notcollected ctx hcr]
  dsimp only
  rw [if_neg hctx, hllm]
  dsimp only
  rw [hcands, processCandidates_prefix_ok O url pre bad rest _ hpre hbad]

theorem processSingleUrl_success_path (O : Oracles) (st : ExtState) (url : String)
    (ctx content : List Char) (hm : ¬url ∈ st.URL)
    (hcr : O.crawlAttempt url 0 = .ok ctx) (hctx : ctx ≠ [])
    (hllm : O.llm (createExtractionTemplate ctx) = .ok content)
    (hall : ∀ c ∈ extractJsonFromResponse content, (O.parse c).isSome) :
    processSingleUrl O st url =
      (getUrlData
          (appendRows st ((extractJsonFromResponse content).filterMap O.parse) url) url,
        appendRows st ((extractJsonFromResponse content).filterMap O.parse) url) := by
  unfold processSingleUrl
  rw [if_neg hm, crawlWebsiteRetry_ok O url st.notcollected ctx hcr]
  dsimp only
  rw [if_neg hctx, hllm]
  dsimp only
  rw [processCandidates_all_ok O url _ _ hall]

/-- C9 (amended): whenever `process_single_url` returns the empty-dict
failure result before any record is stored (crawl failure, empty crawled
content, or LLM failure), the six lists of the table are exactly as before
the call, only `notcollected` possibly growing; but a parse error during
record storage is not atomic: the rows of the candidates preceding the
failing one remain stored. -/
theorem C9_failure_effects (O : Oracles) (st : ExtState) (url : String)
    (hm : ¬url ∈ st.URL) :
    (∀ e, O.crawlAttempt url 0 = .error e →
      processSingleUrl O st url =
        (none, { st with notcollected := st.notcollected ++ [url] })) ∧
      (O.crawlAttempt url 0 = .ok [] → processSingleUrl O st url = (none, st)) ∧
      (∀ ctx e, O.crawlAttempt url 0 = .ok ctx → ctx ≠ [] →
        O.llm (createExtractionTemplate ctx) = .error e →
        processSingleUrl O st url = (none, st)) ∧
      (∀ ctx content pre bad rest, O.crawlAttempt url 0 = .ok ctx → ctx ≠ [] →
        O.llm (createExtractionTemplate ctx) = .ok content →
        extractJsonFromResponse content = pre ++ bad :: rest →
        (∀ c ∈ pre, (O.parse c).isSome) → O.parse bad = none →
        processSingleUrl O st url =
          (none, appendRows st (pre.filterMap O.parse) url)) :=
  ⟨fun e he => processSingleUrl_crawl_error O st url e hm he,
    fun he => processSingleUrl_empty_ctx O st url hm he,
    fun ctx e hcr hctx hllm => processSingleUrl_llm_error O st url ctx e hm hcr hctx hllm,
    fun ctx content pre bad rest hcr hctx hllm hcands hpre hbad =>
      processSingleUrl_parse_fail O st url ctx content pre bad rest hm hcr hctx hllm
        hcands hpre hbad⟩

/-- C9 counterexample: with the LLM response `LR LfR` the first candidate
parses and is stored, the second fails, and `process_single_url` returns
the empty-dict failure result while the table now holds one freshly stored
row for the URL — not the state from before the call. -/
theorem C9_counterexample :
    (processSingleUrl oraclesGoodThenBad initState "u").1.isNone = true ∧
      (processSingleUrl oraclesGoodThenBad initState "u").2.URL = ["u"] :=
  ⟨rfl, rfl⟩

/-- Witness for C9 on the always-failing oracle: a crawl failure leaves the
six lists untouched and only records the URL in `notcollected`. -/
theorem C9_failure_effects_witness :
    ¬"u" ∈ initState.URL ∧
      processSingleUrl oraclesCrash initState "u" =
        (none, { initState with notcollected := ["u"] }) :=
  ⟨by decide, (C9_failure_effects oraclesCrash initState "u" (by decide)).1 "boom" rfl⟩

theorem appendRows_fields (st : ExtState) (os : List (List (String × JVal)))
    (url : String) :
    (appendRows st os url).URL = st.URL ++ List.replicate os.length url ∧
      (appendRows st os url).organisation_name = st.organisation_name ++
        os.map (fun o => getField (fillDefaults o) "organisation_name") ∧
      (appendRows st os url).category = st.category ++
        os.map (fun o => getField (fillDefaults o) "category") ∧
      (appendRows st os url).question = st.question ++
        os.map (fun o => getField (fillDefaults o) "question") ∧
      (appendRows st os url).answer = st.answer ++
        os.map (fun o => getField (fillDefaults o) "answer") ∧
      (appendRows st os url).links = st.links ++
        os.map (fun o => getField (fillDefaults o) "links") ∧
      (appendRows st os url).notcollected = st.notcollected := by
  induction os generalizing st with
  | nil => simp [appendRows]
  | cons o os ih =>
    obtain ⟨t1, t2, t3, t4, t5, t6, t7⟩ := ih (processFaqData st o url)
    have hstep : appendRows st (o :: os) url =
        appendRows (processFaqData st o url) os url := rfl
    rw [hstep, t1, t2, t3, t4, t5, t6, t7]
    simp [processFaqData, List.replicate_succ]

theorem filterMap_length_of_all_some (f : List Char → Option (List (String × JVal)))
    (l : List (List Char)) (h : ∀ x ∈ l, (f x).isSome) :
    (l.filterMap f).length = l.length := by
  induction l with
  | nil => rfl
  | cons x l ih =>
    obtain ⟨y, hy⟩ := Option.isSome_iff_exists.mp (h x (List.mem_cons_self x l))
    rw [List.filterMap_cons, hy]
    simp [ih (fun z hz => h z (List.mem_cons_of_mem x hz))]

/-- C6 (amended): for every LLM response whose extraction yields candidates
that all parse successfully as JSON — say k of them — processing the
response appends exactly k rows to the table, the rows appear in the order
the candidates occur in the response, and every appended row records the
source URL in the URL column. (As literally stated the claim fails when a
non-parsing candidate precedes parsing ones; see the counterexample.) -/
theorem C6_rows_appended_in_order (O : Oracles) (st : ExtState) (url : String)
    (ctx content : List Char) (hm : ¬url ∈ st.URL)
    (hcr : O.crawlAttempt url 0 = .ok ctx) (hctx : ctx ≠ [])
    (hllm : O.llm (createExtractionTemplate ctx) = .ok content)
    (hall : ∀ c ∈ extractJsonFromResponse content, (O.parse c).isSome) :
    ((extractJsonFromResponse content).filterMap O.parse).length =
        (extractJsonFromResponse content).length ∧
      (processSingleUrl O st url).2.URL =
        st.URL ++ List.replicate (extractJsonFromResponse content).length url ∧
      (processSingleUrl O st url).2.organisation_name = st.organisation_name ++
        ((extractJsonFromResponse content).filterMap O.parse).map
          (fun o => getField (fillDefaults o) "organisation_name") ∧
      (processSingleUrl O st url).2.category = st.category ++
        ((extractJsonFromResponse content).filterMap O.parse).map
          (fun o => getField (fillDefaults o) "category") ∧
      (processSingleUrl O st url).2.question = st.question ++
        ((extractJsonFromResponse content).filterMap O.parse).map
          (fun o => getField (fillDefaults o) "question") ∧
      (processSingleUrl O st url).2.answer = st.answer ++
        ((extractJsonFromResponse content).filterMap O.parse).map
          (fun o => getField (fillDefaults o) "answer") ∧
      (processSingleUrl O st url).2.links = st.links ++
        ((extractJsonFromResponse content).filterMap O.parse).map
          (fun o => getField (fillDefaults o) "links") := by
  have hs := processSingleUrl_success_path O st url ctx content hm hcr hctx hllm hall
  have hk := filterMap_length_of_all_some O.parse (extractJsonFromResponse content) hall
  obtain ⟨t1, t2, t3, t4, t5, t6, _⟩ :=
    appendRows_fields st ((extractJsonFromResponse content).filterMap O.parse) url
  rw [hs]
  refine ⟨hk, ?_, t2, t3, t4, t5, t6⟩
  show (appendRows st ((extractJsonFromResponse content).filterMap O.parse) url).URL =
    st.URL ++ List.replicate (extractJsonFromResponse content).length url
  rw [t1, hk]

/-- C6 counterexample: the LLM response `LfooR LR` yields exactly one
successfully parsing candidate (`LR`, k = 1), but processing the response
appends no row at all: the earlier failing candidate aborts the loop. -/
theorem C6_counterexample :
    ((extractJsonFromResponse [lbrace, 'f', 'o', 'o', rbrace, ' ', lbrace, rbrace]).filterMap
        oraclesBadThenGood.parse).length = 1 ∧
      (processSingleUrl oraclesBadThenGood initState "u").2.URL.length = 0 :=
  ⟨rfl, rfl⟩

/-- Witness for C6 on the oracle whose response is `LR LR`: both candidates
parse, and the URL column gains two entries of the processed URL. -/
theorem C6_rows_appended_in_order_witness :
    ¬"u" ∈ initState.URL ∧
      (processSingleUrl oraclesTwoGood initState "u").2.URL =
        initState.URL ++ List.replicate
          (extractJsonFromResponse [lbrace, rbrace, ' ', lbrace, rbrace]).length "u" :=
  ⟨by decide,
    (C6_rows_appended_in_order oraclesTwoGood initState "u" ['c']
        [lbrace, rbrace, ' ', lbrace, rbrace] (by decide) rfl (by decide) rfl
        (by decide)).2.1⟩

/-- C10: with a list of URLs, `extract_faqs` with a positive `max_urls = n`
processes exactly the first n URLs in order and ignores the rest, while
`max_urls = None` and `max_urls = 0` (both falsy in Python) process the
whole list; with a single string URL, `max_urls` is ignored. -/
theorem C10_max_urls_semantics (O : Oracles) (st : ExtState) (l : List String)
    (u : String) :
    (∀ n : Int, 0 < n → extractFaqs O st (.many l) (some n) =
      (l.take n.toNat).foldl (fun s x => (processSingleUrl O s x).2) st) ∧
      extractFaqs O st (.many l) none =
        l.foldl (fun s x => (processSingleUrl O s x).2) st ∧
      extractFaqs O st (.many l) (some 0) =
        l.foldl (fun s x => (processSingleUrl O s x).2) st ∧
      ∀ mx, extractFaqs O st (.single u) mx = (processSingleUrl O st u).2 := by
  refine ⟨fun n hn => ?_, rfl, rfl, fun mx => rfl⟩
  have ht : pyTruthy (some n) = true := by
    simp only [pyTruthy, bne_iff_ne, ne_eq]
    omega
  unfold extractFaqs
  dsimp only
  rw [ht]
  have hsl : pySlice l ((some n).getD 0) = l.take n.toNat := by
    unfold pySlice
    rw [Option.getD_some, if_pos (le_of_lt hn)]
  rw [hsl]
  rfl

/-- Witness for C10 at the two-element list with `max_urls = 1`. -/
theorem C10_max_urls_semantics_witness :
    (0 : Int) < 1 ∧
      extractFaqs oraclesCrash initState (.many ["a", "b"]) (some 1) =
        (["a", "b"].take (1 : Int).toNat).foldl
          (fun s x => (processSingleUrl oraclesCrash s x).2) initState :=
  ⟨by decide,
    (C10_max_urls_semantics oraclesCrash initState ["a", "b"] "x").1 1 (by decide)⟩

end Scrape
